import Mathlib

/- Verification of the RNA-seq latent-TB differential-expression pipeline
(`src/RNAseq_RawCode.py`) against its specification.

The pipeline's own code is a linear notebook: it log-transforms and filters the
count matrix, merges it with sample metadata, hands the reduced matrix to an
external DESeq2 implementation, re-runs a Benjamini-Hochberg correction over the
raw p-values, and thresholds the corrected results.  The in-repository steps
(the `_centered` helper, the log2 gene filter, the metadata merge and column
slicing, the condition relabelling, and the significance threshold) are embedded
directly from the source.  The two statistical routines the source invokes from
external packages (`smm.multipletests(..., method='fdr_bh')` and the size-factor
step inside `dds.deseq2()`) are not part of the repository; they are modelled
from the specification's own description and marked as such. -/

namespace RNAseq

/-! ### Data model -/

/-- The raw count table (source: `df` after `set_index('Transcript_ID').T`):
samples are rows, genes are columns, `entry s g` is the integer read count of
gene `g` in sample `s`.  Row and column orders are kept explicitly. -/
structure CountDF where
  samples : List String
  genes : List String
  entry : String → String → ℕ

/-- The sample metadata table (source: `meta`): sample titles in file order and
the `disease_group` label of each title. -/
structure MetaDF where
  titles : List String
  disease_group : String → String

/-- A sample-by-gene table produced by the metadata merge (source: `counts`),
and also the shape of `filtered_counts`. -/
structure CountsMerged where
  rows : List String
  genes : List String
  entry : String → String → ℕ

/-- One row of the differential-expression result table (source: `results`);
`none` stands for an undefined (NaN) float. -/
structure DEResult where
  gene : String
  log2FoldChange : Option ℚ
  pvalue : Option ℚ
  bh_adj : Option ℚ

/-! ### The `_centered` helper (source lines 48-55) -/

/-- A numpy n-dimensional array, reduced to what `_centered` touches: a shape
and the value stored at each multi-index. -/
structure NDArray where
  shape : List ℕ
  data : List ℕ → ℚ

/-- Source: `startind = (currsize - newsize) // 2`, computed per dimension. -/
def startind (arr : NDArray) (newsize : List ℕ) : List ℕ :=
  List.zipWith (fun c n => (c - n) / 2) arr.shape newsize

/-- Source `_centered(arr, newsize)`: the slice `arr[start : start + newsize]`
in every dimension, i.e. the array of shape `newsize` whose value at
multi-index `v` is the value of `arr` at `startind + v`. -/
def _centered (arr : NDArray) (newsize : List ℕ) : NDArray :=
  { shape := newsize
    data := fun v => arr.data (List.zipWith (· + ·) (startind arr newsize) v) }

/-! ### Gene filter (source lines 113-175) -/

/-- Source: `epsilon = 0.5`. -/
noncomputable def epsilon : ℝ := 1 / 2

/-- The filter cut-off (source: the hard-coded `0.5` threshold). -/
noncomputable def tau : ℝ := 1 / 2

/-- Base-2 logarithm (`np.log2`), idealized over the reals. -/
noncomputable def log2 (x : ℝ) : ℝ := Real.logb 2 x

/-- Source: `counts_log2 = np.log2(df + epsilon).clip(lower=np.log2(epsilon))`,
per sample `s` and gene `g`. -/
noncomputable def counts_log2 (df : CountDF) (s g : String) : ℝ :=
  max (log2 epsilon) (log2 ((df.entry s g : ℝ) + epsilon))

/-- Source: `means_per_gene = np.mean(counts_log2, axis=0)`: the per-gene mean
of the transformed values over all samples. -/
noncomputable def means_per_gene (df : CountDF) (g : String) : ℝ :=
  (df.samples.map (fun s => counts_log2 df s g)).sum / (df.samples.length : ℝ)

/-- Source: `to_remove = means_log2 < 0.5`. -/
noncomputable def to_remove (df : CountDF) (g : String) : Bool :=
  decide (means_per_gene df g < tau)

/-- Source: `to_keep = to_remove[~to_remove['Log2Count']]; to_keep =
list(to_keep.index)`: the genes whose removal flag is false, in the original
column order.  The source performs no check on how many genes survive. -/
noncomputable def to_keep (df : CountDF) : List String :=
  df.genes.filter (fun g => ! to_remove df g)

/-! ### Metadata merge and the filtered count matrix (source lines 102-103 and 193-195) -/

/-- Source lines 102-103: `counts = meta.merge(df.copy().reset_index()...)`:
an inner join on `title`.  Pandas keeps the left (metadata) row order; sample
titles are unique by the data-model invariant, so the merge is a filter of the
metadata order down to the titles present in the count table. -/
def countsMerge (md : MetaDF) (df : CountDF) : CountsMerged :=
  { rows := md.titles.filter (fun t => decide (t ∈ df.samples))
    genes := df.genes
    entry := df.entry }

/-- Source lines 193-195: `filtered_counts = counts.loc[:, 'MARCH1':]` keeps the
column suffix starting at the label `'MARCH1'` (dropping the metadata columns);
`.loc[:, to_keep]` then selects exactly the surviving genes, raising a
`KeyError` (modelled as `none`) if one of them is not among the sliced columns;
finally `filtered_counts.index = meta['title']` re-labels the rows with the
metadata titles, raising a `ValueError` (modelled as `none`) if the row count
differs from the metadata length.  The entries are the original raw counts; the
original table `df` is never mutated (`counts` was built from `df.copy()`). -/
noncomputable def filtered_counts (md : MetaDF) (df : CountDF) : Option CountsMerged :=
  if (to_keep df).all
        (fun g => decide (g ∈ (countsMerge md df).genes.dropWhile (fun x => x != "MARCH1")))
      && ((countsMerge md df).rows.length == md.titles.length)
  then some { rows := md.titles, genes := to_keep df, entry := df.entry }
  else none

/-! ### Condition covariate (source line 203) -/

/-- Source: `['Healthy' if x == 'Healthy' else 'TB' for x in
meta_copy['disease_group']]`, as the per-label mapping. -/
def condition (x : String) : String := if x = "Healthy" then "Healthy" else "TB"

/-! ### Significance selection (source line 252) -/

/-- Pandas comparison `x < c` where `x` may be NaN (`none`): a NaN comparison
is false. -/
def nanLt (x : Option ℚ) (c : ℚ) : Bool :=
  match x with
  | none => false
  | some v => decide (v < c)

/-- Pandas comparison `abs(x) > c` where `x` may be NaN (`none`): `abs` of NaN
is NaN and a NaN comparison is false. -/
def nanAbsGt (x : Option ℚ) (c : ℚ) : Bool :=
  match x with
  | none => false
  | some v => decide (c < |v|)

/-- Source: `diff_exp_genes = results[(results['bh_adj'] < 0.05) &
(abs(results['log2FoldChange']) > 1)]`: a boolean-mask row filter, which keeps
the input row order. -/
def diff_exp_genes (results : List DEResult) : List DEResult :=
  results.filter (fun r => nanLt r.bh_adj (5 / 100) && nanAbsGt r.log2FoldChange 1)

/-! ### Benjamini-Hochberg corrector

Modelled from the spec: the source invokes `smm.multipletests(results['pvalue'],
alpha=0.05, method='fdr_bh')` (line 222) from the external `statsmodels`
package, whose body is not part of this repository; the procedure below follows
spec section 4.5 word for word.  A raw p-value is `none` when undefined (NaN). -/

/-- Modelled from the spec: the defined (non-NaN) raw p-values, in input order;
"genes with undefined p-values are excluded from the ranking". -/
def definedPs (ps : List (Option ℚ)) : List ℚ := ps.filterMap id

/-- Modelled from the spec: the number `m` of defined tests. -/
def mDefined (ps : List (Option ℚ)) : ℕ := (definedPs ps).length

/-- Modelled from the spec: "sort defined p-values ascending". -/
def sortedPs (ps : List (Option ℚ)) : List ℚ :=
  List.insertionSort (· ≤ ·) (definedPs ps)

/-- Modelled from the spec: the rank-i quantity `p_i × m / i` (1-indexed rank,
`m` defined tests in total). -/
def rawAdj (ps : List (Option ℚ)) : List ℚ :=
  (sortedPs ps).enum.map (fun pr => pr.2 * (mDefined ps : ℚ) / ((pr.1 : ℚ) + 1))

/-- Modelled from the spec: the cumulative-minimum step, taken from the largest
rank backwards, so that position i holds the minimum over all ranks j ≥ i. -/
def cumMinFromEnd : List ℚ → List ℚ
  | [] => []
  | x :: xs =>
    match cumMinFromEnd xs with
    | [] => [x]
    | y :: ys => min x y :: y :: ys

/-- Modelled from the spec: the adjusted p-values in rank order — the
cumulative minimum, then "cap every adjusted value at 1.0". -/
def bhAdjustSorted (ps : List (Option ℚ)) : List ℚ :=
  (cumMinFromEnd (rawAdj ps)).map (fun x => min 1 x)

/-- Modelled from the spec: the per-gene `bh_adj` output column.  A gene with an
undefined raw p-value keeps an undefined adjusted value; a gene with defined raw
p-value `p` receives the rank-ordered adjusted value at the rank of `p` (the
first position of `p` in the ascending sort; the cumulative minimum gives tied
p-values equal adjusted values). -/
def bh_adj (ps : List (Option ℚ)) : List (Option ℚ) :=
  ps.map (fun p? => p?.bind (fun p => (bhAdjustSorted ps)[(sortedPs ps).indexOf p]?))

/-- The closed form asserted by the spec for the rank-i adjusted value:
`min(1, min over all j ≥ i of p_j × m / j)`.  The fold's base value 1 is
absorbed by the outer cap, so this is exactly that double minimum. -/
def bhClosedForm (ps : List (Option ℚ)) (i : ℕ) : ℚ :=
  min 1 (((rawAdj ps).drop i).foldr min 1)

/-! ### Size factors

Modelled from the spec: the source delegates normalization to `dds.deseq2()`
(line 210) of the external `pydeseq2` package, whose body is not part of this
repository; the median-of-ratios computation below follows spec section 4.2. -/

/-- Modelled from the spec: a gene qualifies for the ratio computation unless
some sample has a zero count for it ("any sample with a zero for that gene
disqualifies it"). -/
def qualifying (M : CountDF) : List String :=
  M.genes.filter (fun g => decide (∀ s ∈ M.samples, 0 < M.entry s g))

/-- Modelled from the spec: the geometric mean of a gene's counts across all
samples. -/
noncomputable def gmean (M : CountDF) (g : String) : ℝ :=
  ((M.samples.map (fun s => (M.entry s g : ℝ))).prod) ^ ((M.samples.length : ℝ))⁻¹

/-- Modelled from the spec: for one sample, the per-gene ratio of its count to
the gene's geometric mean, over all qualifying genes. -/
noncomputable def ratios (M : CountDF) (s : String) : List ℝ :=
  (qualifying M).map (fun g => (M.entry s g : ℝ) / gmean M g)

/-- The median of a list of reals: middle element of the ascending sort, or the
average of the two middle elements for an even length. -/
noncomputable def medianR (l : List ℝ) : ℝ :=
  let srt := List.insertionSort (· ≤ ·) l
  if l.length % 2 = 1 then srt.getD (l.length / 2) 0
  else (srt.getD (l.length / 2 - 1) 0 + srt.getD (l.length / 2) 0) / 2

/-- Modelled from the spec: "the sample's size factor is the median of those
ratios". -/
noncomputable def rawFactor (M : CountDF) (s : String) : ℝ := medianR (ratios M s)

/-- Modelled from the spec: the geometric mean of the per-sample factors, used
for the final shift. -/
noncomputable def gmFactors (M : CountDF) : ℝ :=
  ((M.samples.map (rawFactor M)).prod) ^ ((M.samples.length : ℝ))⁻¹

/-- Modelled from the spec: one factor per sample, each divided by the overall
geometric mean; "fails with a NormalizationError if no gene qualifies". -/
noncomputable def sizeFactors (M : CountDF) : Except String (List ℝ) :=
  if qualifying M = [] then Except.error "NormalizationError"
  else Except.ok (M.samples.map (fun s => rawFactor M s / gmFactors M))

/-! ### Concrete instances used by witnesses and counterexamples -/

/-- A one-sample table whose gene `MARCH1` has a large count (it survives the
filter) and whose gene `B` is all-zero (it is removed), leaving a single
surviving gene. -/
def exDF6 : CountDF :=
  { samples := ["s1"]
    genes := ["MARCH1", "B"]
    entry := fun _ g => if g = "MARCH1" then 1000 else 0 }

/-- Metadata matching `exDF6`. -/
def exMeta6 : MetaDF := { titles := ["s1"], disease_group := fun _ => "Healthy" }

/-- A two-sample table whose single gene `MARCH1` survives the filter. -/
def exDF7 : CountDF :=
  { samples := ["s1", "s2"]
    genes := ["MARCH1"]
    entry := fun _ _ => 1000 }

/-- Metadata listing the same two samples as `exDF7` in the opposite order. -/
def exMeta7 : MetaDF := { titles := ["s2", "s1"], disease_group := fun _ => "Healthy" }

/-- A two-sample, one-gene table with all counts positive, for the size-factor
witness. -/
def exM3 : CountDF :=
  { samples := ["s1", "s2"], genes := ["g"], entry := fun _ _ => 2 }

/-- A concrete 2-dimensional array for the `_centered` witness. -/
def exArr : NDArray := { shape := [4, 5], data := fun v => (v.sum : ℚ) }

/-! ## Helper lemmas -/

theorem getD_zipWith_lt (f : ℕ → ℕ → ℕ) :
    ∀ (l1 l2 : List ℕ) (i : ℕ), i < l1.length → i < l2.length →
      (List.zipWith f l1 l2).getD i 0 = f (l1.getD i 0) (l2.getD i 0) := by
  intro l1
  induction l1 with
  | nil => intro l2 i h1 _; exact absurd h1 (by simp)
  | cons a l ih =>
    intro l2 i h1 h2
    cases l2 with
    | nil => exact absurd h2 (by simp)
    | cons b l2t =>
      cases i with
      | zero => simp [List.getD]
      | succ n =>
        simp only [List.zipWith_cons_cons, List.getD_cons_succ]
        exact ih l2t n (by simpa using h1) (by simpa using h2)

theorem nanLt_iff (x : Option ℚ) (c : ℚ) :
    nanLt x c = true ↔ ∃ v, x = some v ∧ v < c := by
  cases x <;> simp [nanLt]

theorem nanAbsGt_iff (x : Option ℚ) (c : ℚ) :
    nanAbsGt x c = true ↔ ∃ v, x = some v ∧ c < |v| := by
  cases x <;> simp [nanAbsGt]

/-! ## Claim theorems -/

/-- C10: the condition covariate equals `"Healthy"` exactly when the sample's
`disease_group` label is the string `"Healthy"`, and `"TB"` otherwise; hence it
takes at most the two values `"Healthy"`/`"TB"`, and any unrecognized or
misspelled label is silently mapped to `"TB"`. -/
theorem condition_spec :
    ∀ x, (condition x = "Healthy" ↔ x = "Healthy")
      ∧ (condition x = "Healthy" ∨ condition x = "TB") := by
  intro x
  unfold condition
  by_cases h : x = "Healthy" <;> simp [h]

/-- C9: `_centered` is a pure centered crop: the result has shape exactly
`newsize`; the start index in dimension `k` is `(shape[k] - newsize[k]) / 2`,
which keeps the slice in bounds and, when the margin is odd, biases it toward
the lower index (the lower margin `start` never exceeds half the margin); and
the value at multi-index `v` is the value of `arr` at `startind + v`.  The
embedding is a pure function of `arr`, which is left untouched. -/
theorem centered_spec (arr : NDArray) (newsize : List ℕ)
    (hlen : newsize.length = arr.shape.length)
    (hle : ∀ i, i < newsize.length → newsize.getD i 0 ≤ arr.shape.getD i 0) :
    (_centered arr newsize).shape = newsize ∧
    (∀ i, i < newsize.length →
      (startind arr newsize).getD i 0 + newsize.getD i 0 ≤ arr.shape.getD i 0) ∧
    (∀ i, i < newsize.length →
      2 * (startind arr newsize).getD i 0 ≤ arr.shape.getD i 0 - newsize.getD i 0) ∧
    (∀ v, (_centered arr newsize).data v
      = arr.data (List.zipWith (· + ·) (startind arr newsize) v)) := by
  refine ⟨rfl, ?_, ?_, fun v => rfl⟩
  · intro i hi
    have hs : i < arr.shape.length := hlen ▸ hi
    rw [startind, getD_zipWith_lt _ _ _ _ hs hi]
    have h := hle i hi
    omega
  · intro i hi
    have hs : i < arr.shape.length := hlen ▸ hi
    rw [startind, getD_zipWith_lt _ _ _ _ hs hi]
    omega

/-- Witness for C9 at a concrete array and target shape. -/
theorem centered_spec_witness :
    (([2, 3] : List ℕ).length = exArr.shape.length
      ∧ ∀ i, i < ([2, 3] : List ℕ).length →
          ([2, 3] : List ℕ).getD i 0 ≤ exArr.shape.getD i 0) ∧
    ((_centered exArr [2, 3]).shape = [2, 3] ∧
      (∀ i, i < ([2, 3] : List ℕ).length →
        (startind exArr [2, 3]).getD i 0 + ([2, 3] : List ℕ).getD i 0
          ≤ exArr.shape.getD i 0) ∧
      (∀ i, i < ([2, 3] : List ℕ).length →
        2 * (startind exArr [2, 3]).getD i 0
          ≤ exArr.shape.getD i 0 - ([2, 3] : List ℕ).getD i 0) ∧
      (∀ v, (_centered exArr [2, 3]).data v
        = exArr.data (List.zipWith (· + ·) (startind exArr [2, 3]) v))) :=
  ⟨⟨by decide, by decide⟩, centered_spec exArr [2, 3] (by decide) (by decide)⟩

/-- C5: the significance selector keeps exactly the rows whose adjusted p-value
is defined and strictly below α = 0.05 and whose fold-change is defined with
absolute value strictly above φ = 1; rows with an undefined (NaN) adjusted
p-value or fold-change are never selected, and the output is a sublist of the
input (the input row order is preserved). -/
theorem diff_exp_genes_spec (results : List DEResult) :
    List.Sublist (diff_exp_genes results) results ∧
    ∀ r, r ∈ diff_exp_genes results ↔
      r ∈ results ∧ (∃ a, r.bh_adj = some a ∧ a < 5 / 100)
        ∧ ∃ f, r.log2FoldChange = some f ∧ 1 < |f| := by
  constructor
  · exact List.filter_sublist _
  · intro r
    rw [diff_exp_genes, List.mem_filter, Bool.and_eq_true, nanLt_iff, nanAbsGt_iff]

/-- C4: a gene is retained by the filter exactly when its per-gene mean over
all samples of log2(count + ε) (ε = 0.5, clipped below at log2 ε) is ≥ τ = 0.5,
and it is removed exactly when that mean is < 0.5; in particular a mean of
exactly 0.5 is retained. -/
theorem geneFilter_threshold (df : CountDF) (g : String) (hg : g ∈ df.genes) :
    (g ∈ to_keep df ↔ tau ≤ means_per_gene df g) ∧
    (g ∉ to_keep df ↔ means_per_gene df g < tau) := by
  have h1 : g ∈ to_keep df ↔ tau ≤ means_per_gene df g := by
    rw [to_keep, List.mem_filter]
    simp [to_remove, hg, not_lt]
  exact ⟨h1, (not_congr h1).trans not_le⟩

/-- Witness for C4 at a concrete table and gene. -/
theorem geneFilter_threshold_witness :
    "MARCH1" ∈ exDF6.genes ∧
    (("MARCH1" ∈ to_keep exDF6 ↔ tau ≤ means_per_gene exDF6 "MARCH1") ∧
      ("MARCH1" ∉ to_keep exDF6 ↔ means_per_gene exDF6 "MARCH1" < tau)) :=
  ⟨by decide, geneFilter_threshold exDF6 "MARCH1" (by decide)⟩

/-! ### Benjamini-Hochberg lemmas -/

theorem cumMinFromEnd_length (l : List ℚ) : (cumMinFromEnd l).length = l.length := by
  induction l with
  | nil => rfl
  | cons x xs ih =>
    cases h : cumMinFromEnd xs with
    | nil =>
      rw [h] at ih
      simp only [cumMinFromEnd, h, List.length_cons, List.length_nil] at *
      omega
    | cons y ys =>
      rw [h] at ih
      simp only [cumMinFromEnd, h, List.length_cons] at *
      omega

theorem mem_of_mem_cumMinFromEnd : ∀ {l : List ℚ} {a : ℚ}, a ∈ cumMinFromEnd l → a ∈ l := by
  intro l
  induction l with
  | nil => intro a h; simp [cumMinFromEnd] at h
  | cons x xs ih =>
    intro a h
    cases hc : cumMinFromEnd xs with
    | nil =>
      rw [cumMinFromEnd, hc] at h
      simp only [List.mem_singleton] at h
      simp [h]
    | cons y ys =>
      rw [cumMinFromEnd, hc] at h
      have hy : y ∈ cumMinFromEnd xs := by rw [hc]; exact List.mem_cons_self y ys
      rcases List.mem_cons.mp h with h1 | h2
      · rcases min_choice x y with hm | hm
        · rw [h1, hm]; exact List.mem_cons_self x xs
        · rw [h1, hm]; exact List.mem_cons_of_mem x (ih hy)
      · have hmem : a ∈ cumMinFromEnd xs := by rw [hc]; exact h2
        exact List.mem_cons_of_mem x (ih hmem)

theorem cumMinFromEnd_chain : ∀ l : List ℚ, List.Chain' (· ≤ ·) (cumMinFromEnd l) := by
  intro l
  induction l with
  | nil => simp [cumMinFromEnd]
  | cons x xs ih =>
    cases hc : cumMinFromEnd xs with
    | nil => rw [cumMinFromEnd, hc]; simp
    | cons y ys =>
      rw [cumMinFromEnd, hc]
      rw [hc] at ih
      exact List.chain'_cons.mpr ⟨min_le_right x y, ih⟩

theorem min_one_distrib (a b : ℚ) : min 1 (min a b) = min (min 1 a) (min 1 b) := by
  rw [min_min_min_comm, min_self]

theorem cumMin_map_min_one : ∀ l : List ℚ,
    (cumMinFromEnd l).map (fun z => min 1 z)
      = (List.range l.length).map (fun i => min 1 ((l.drop i).foldr min 1)) := by
  intro l
  induction l with
  | nil => simp [cumMinFromEnd]
  | cons x xs ih =>
    cases hc : cumMinFromEnd xs with
    | nil =>
      have hxs : xs = [] := by
        have hl := cumMinFromEnd_length xs
        rw [hc] at hl
        exact List.length_eq_zero.mp hl.symm
      subst hxs
      have h1 : cumMinFromEnd [x] = [x] := rfl
      have h2 : List.range ([x].length) = [0] := rfl
      rw [h1, h2]
      simp only [List.map_cons, List.map_nil, List.drop_zero, List.foldr_cons,
        List.foldr_nil]
      rw [min_comm x 1, ← min_assoc, min_self]
    | cons y ys =>
      have hlen : xs.length = ys.length + 1 := by
        have hl := cumMinFromEnd_length xs
        rw [hc] at hl
        simpa using hl.symm
      rw [hc] at ih
      rw [cumMinFromEnd, hc]
      rw [List.length_cons, List.range_succ_eq_map, List.map_cons, List.map_cons,
        List.map_cons, List.map_map]
      congr 1
      show min 1 (min x y) = min 1 (List.foldr min 1 (x :: xs))
      have hhead : min 1 y = min 1 (xs.foldr min 1) := by
        have h0 := congrArg List.head? ih
        rw [hlen, List.range_succ_eq_map] at h0
        simpa using h0
      rw [List.foldr_cons, min_one_distrib, min_one_distrib, hhead]

theorem rawAdj_length (ps : List (Option ℚ)) : (rawAdj ps).length = mDefined ps := by
  simp [rawAdj, sortedPs, mDefined, List.length_insertionSort]

theorem rawAdj_nonneg (ps : List (Option ℚ)) (hp : ∀ p ∈ definedPs ps, 0 ≤ p) :
    ∀ b ∈ rawAdj ps, 0 ≤ b := by
  intro b hb
  rw [rawAdj, List.mem_map] at hb
  obtain ⟨pr, hpr, rfl⟩ := hb
  have h2 : pr.2 ∈ sortedPs ps := by
    have := List.mem_enum_iff_getElem?.mp hpr
    exact List.getElem?_mem this
  have hp2 : 0 ≤ pr.2 := hp _ ((List.mem_insertionSort _).mp h2)
  have hm : (0 : ℚ) ≤ (mDefined ps : ℚ) := Nat.cast_nonneg _
  have hd : (0 : ℚ) ≤ (pr.1 : ℚ) + 1 := by positivity
  exact div_nonneg (mul_nonneg hp2 hm) hd

theorem bhAdjustSorted_length (ps : List (Option ℚ)) :
    (bhAdjustSorted ps).length = mDefined ps := by
  simp [bhAdjustSorted, cumMinFromEnd_length, rawAdj_length]

theorem bhAdjustSorted_mem_bounds (ps : List (Option ℚ))
    (hp : ∀ p ∈ definedPs ps, 0 ≤ p) :
    ∀ a ∈ bhAdjustSorted ps, 0 ≤ a ∧ a ≤ 1 := by
  intro a ha
  rw [bhAdjustSorted, List.mem_map] at ha
  obtain ⟨b, hb, rfl⟩ := ha
  have hbr : b ∈ rawAdj ps := mem_of_mem_cumMinFromEnd hb
  exact ⟨le_min zero_le_one (rawAdj_nonneg ps hp b hbr), min_le_left _ _⟩

/-- C1: in the independent correction pass, ranking and the count m use only
the defined (non-NaN) raw p-values; the rank-ordered adjusted values equal the
closed form min(1, min over all j ≥ i of p_j × m / j); and (for raw p-values
that are nonnegative, as probabilities are) every defined adjusted output value
lies in [0, 1].  (Corrector modelled from the spec, section 4.5.) -/
theorem bh_adj_closed_form (ps : List (Option ℚ))
    (hp : ∀ p ∈ definedPs ps, 0 ≤ p) :
    List.Sorted (· ≤ ·) (sortedPs ps) ∧
    (rawAdj ps).length = mDefined ps ∧
    bhAdjustSorted ps = (List.range (mDefined ps)).map (bhClosedForm ps) ∧
    ∀ (k : ℕ) (a : ℚ), (bh_adj ps)[k]? = some (some a) → 0 ≤ a ∧ a ≤ 1 := by
  refine ⟨List.sorted_insertionSort _ _, rawAdj_length ps, ?_, ?_⟩
  · have h := cumMin_map_min_one (rawAdj ps)
    rw [rawAdj_length] at h
    exact h
  · intro k a hka
    rw [bh_adj, List.getElem?_map] at hka
    cases hk : ps[k]? with
    | none => rw [hk] at hka; simp at hka
    | some pq =>
      rw [hk] at hka
      simp only [Option.map_some'] at hka
      have hbind := Option.some.inj hka
      cases pq with
      | none => simp at hbind
      | some p =>
        simp only [Option.some_bind] at hbind
        have ha : a ∈ bhAdjustSorted ps := List.getElem?_mem hbind
        exact bhAdjustSorted_mem_bounds ps hp a ha

/-- Witness for C1 at a concrete p-value list containing a NaN. -/
theorem bh_adj_closed_form_witness :
    (∀ p ∈ definedPs [some (0 : ℚ), none, some 1], 0 ≤ p) ∧
    (List.Sorted (· ≤ ·) (sortedPs [some (0 : ℚ), none, some 1]) ∧
      (rawAdj [some (0 : ℚ), none, some 1]).length
        = mDefined [some (0 : ℚ), none, some 1] ∧
      bhAdjustSorted [some (0 : ℚ), none, some 1]
        = (List.range (mDefined [some (0 : ℚ), none, some 1])).map
            (bhClosedForm [some (0 : ℚ), none, some 1]) ∧
      ∀ (k : ℕ) (a : ℚ), (bh_adj [some (0 : ℚ), none, some 1])[k]? = some (some a)
        → 0 ≤ a ∧ a ≤ 1) :=
  ⟨by decide, bh_adj_closed_form _ (by decide)⟩

/-- C2: after the independent correction pass, every gene whose raw p-value is
defined receives a defined adjusted value, whatever the other genes' raw
p-values are (in particular however many of them are NaN).  (Corrector
modelled from the spec, sections 4.5 and 7.) -/
theorem bh_adj_recovers_defined (ps : List (Option ℚ)) (k : ℕ) (p : ℚ)
    (hk : ps[k]? = some (some p)) :
    ∃ a : ℚ, (bh_adj ps)[k]? = some (some a) := by
  have hmem : p ∈ definedPs ps := by
    have hsome : some p ∈ ps := List.getElem?_mem hk
    exact List.mem_filterMap.mpr ⟨some p, hsome, rfl⟩
  have hs : p ∈ sortedPs ps := (List.mem_insertionSort _).mpr hmem
  have hidx : (sortedPs ps).indexOf p < (bhAdjustSorted ps).length := by
    rw [bhAdjustSorted_length]
    have h1 : (sortedPs ps).indexOf p < (sortedPs ps).length :=
      List.indexOf_lt_length.mpr hs
    have h2 : (sortedPs ps).length = mDefined ps := by
      rw [sortedPs, List.length_insertionSort]; rfl
    omega
  refine ⟨(bhAdjustSorted ps)[(sortedPs ps).indexOf p], ?_⟩
  rw [bh_adj, List.getElem?_map, hk]
  simp only [Option.map_some', Option.some_bind, List.getElem?_eq_getElem hidx]

/-- Witness for C2: a concrete list where the second gene's raw p-value is NaN
and the first gene still receives a defined adjusted value. -/
theorem bh_adj_recovers_defined_witness :
    ([some (0 : ℚ), none][0]? = some (some (0 : ℚ))) ∧
    ∃ a : ℚ, (bh_adj [some (0 : ℚ), none])[0]? = some (some a) :=
  ⟨rfl, bh_adj_recovers_defined [some (0 : ℚ), none] 0 0 rfl⟩

/-- C8: the adjusted p-values, read in ascending raw p-value rank order, form a
non-decreasing sequence: the cumulative minimum is monotone and the cap at 1
preserves monotonicity.  (Corrector modelled from the spec, section 4.5.) -/
theorem bh_adj_monotone (ps : List (Option ℚ)) :
    List.Chain' (· ≤ ·) (bhAdjustSorted ps) := by
  have hchain := cumMinFromEnd_chain (rawAdj ps)
  rw [bhAdjustSorted]
  exact List.chain'_map_of_chain' _ (fun a b hab => min_le_min le_rfl hab) hchain

/-! ### Size-factor lemmas -/

theorem getD_mem_of_lt {l : List ℝ} {n : ℕ} (h : n < l.length) : l.getD n 0 ∈ l := by
  rw [List.getD_eq_getElem?_getD, List.getElem?_eq_getElem h]
  exact List.getElem_mem h

theorem medianR_pos {l : List ℝ} (hne : l ≠ []) (hpos : ∀ x ∈ l, 0 < x) :
    0 < medianR l := by
  have hp : ∀ x ∈ List.insertionSort (· ≤ ·) l, 0 < x := by
    intro x hx
    exact hpos x ((List.mem_insertionSort _).mp hx)
  have hlen : (List.insertionSort (· ≤ ·) l).length = l.length :=
    List.length_insertionSort _ _
  have hl0 : 0 < l.length := List.length_pos.mpr hne
  rw [medianR]
  split
  · exact hp _ (getD_mem_of_lt (by rw [hlen]; exact Nat.div_lt_self hl0 one_lt_two))
  · have h1 : l.length / 2 - 1 < (List.insertionSort (· ≤ ·) l).length := by
      rw [hlen]; omega
    have h2 : l.length / 2 < (List.insertionSort (· ≤ ·) l).length := by
      rw [hlen]; exact Nat.div_lt_self hl0 one_lt_two
    have hx1 := hp _ (getD_mem_of_lt h1)
    have hx2 := hp _ (getD_mem_of_lt h2)
    linarith

theorem qualifying_pos {M : CountDF} {g : String} (hg : g ∈ qualifying M) :
    ∀ s ∈ M.samples, 0 < M.entry s g := by
  rw [qualifying, List.mem_filter] at hg
  exact of_decide_eq_true hg.2

theorem gmean_pos {M : CountDF} {g : String}
    (hg : ∀ s ∈ M.samples, 0 < M.entry s g) : 0 < gmean M g := by
  apply Real.rpow_pos_of_pos
  apply List.prod_pos
  intro x hx
  rw [List.mem_map] at hx
  obtain ⟨s, hs, rfl⟩ := hx
  exact_mod_cast hg s hs

theorem ratios_pos {M : CountDF} {s : String} (hs : s ∈ M.samples) :
    ∀ x ∈ ratios M s, 0 < x := by
  intro x hx
  rw [ratios, List.mem_map] at hx
  obtain ⟨g, hg, rfl⟩ := hx
  have hq := qualifying_pos hg
  exact div_pos (by exact_mod_cast hq s hs) (gmean_pos hq)

theorem rawFactor_pos {M : CountDF} {s : String} (hs : s ∈ M.samples)
    (hq : qualifying M ≠ []) : 0 < rawFactor M s := by
  apply medianR_pos
  · rw [ratios]
    simpa using hq
  · exact ratios_pos hs

theorem prodRawFactors_pos (M : CountDF) (hq : qualifying M ≠ []) :
    0 < (M.samples.map (rawFactor M)).prod := by
  apply List.prod_pos
  intro x hx
  rw [List.mem_map] at hx
  obtain ⟨s, hs, rfl⟩ := hx
  exact rawFactor_pos hs hq

theorem gmFactors_pos (M : CountDF) (hq : qualifying M ≠ []) : 0 < gmFactors M :=
  Real.rpow_pos_of_pos (prodRawFactors_pos M hq) _

theorem gmFactors_pow (M : CountDF) (hN : M.samples ≠ [])
    (hq : qualifying M ≠ []) :
    gmFactors M ^ M.samples.length = (M.samples.map (rawFactor M)).prod := by
  have hP := prodRawFactors_pos M hq
  have hn : ((M.samples.length : ℝ)) ≠ 0 := by
    simpa using hN
  rw [gmFactors, ← Real.rpow_natCast
    (((M.samples.map (rawFactor M)).prod) ^ ((M.samples.length : ℝ))⁻¹)
    M.samples.length]
  rw [← Real.rpow_mul (le_of_lt hP), inv_mul_cancel₀ hn, Real.rpow_one]

theorem sizeFactors_prod (M : CountDF) (hN : M.samples ≠ [])
    (hq : qualifying M ≠ []) :
    (M.samples.map (fun s => rawFactor M s / gmFactors M)).prod = 1 := by
  have hP := prodRawFactors_pos M hq
  have hcalc : (M.samples.map (fun s => rawFactor M s / gmFactors M)).prod
      = (M.samples.map (rawFactor M)).prod * ((gmFactors M)⁻¹) ^ M.samples.length := by
    rw [show (fun s => rawFactor M s / gmFactors M)
        = fun s => rawFactor M s * (gmFactors M)⁻¹ from funext fun s => div_eq_mul_inv _ _]
    rw [List.prod_map_mul]
    congr 1
    rw [List.map_const', List.prod_replicate]
  rw [hcalc, inv_pow, gmFactors_pow M hN hq]
  exact mul_inv_cancel₀ (ne_of_gt hP)

theorem qualifying_eq_nil_iff (M : CountDF) :
    qualifying M = [] ↔ ∀ g ∈ M.genes, ∃ s ∈ M.samples, M.entry s g = 0 := by
  rw [qualifying, List.filter_eq_nil_iff]
  simp only [decide_eq_true_eq, not_forall, not_lt, Nat.le_zero, exists_prop]

/-- C3: for the size-factor computation (modelled from the spec, section 4.2,
since the source delegates it to the external `dds.deseq2()` call): if every
gene has a zero count in some sample, no gene qualifies and the computation
fails with a NormalizationError; otherwise every one of the N samples receives
exactly one positive (hence finite) factor, and the geometric mean of the N
factors is exactly 1 (their product is 1, so the N-th root of the product is
1). -/
theorem sizeFactors_spec (M : CountDF) (hN : M.samples ≠ []) :
    ((∀ g ∈ M.genes, ∃ s ∈ M.samples, M.entry s g = 0)
        → sizeFactors M = Except.error "NormalizationError") ∧
    ∀ fs, sizeFactors M = Except.ok fs →
      fs.length = M.samples.length ∧ (∀ f ∈ fs, 0 < f)
        ∧ fs.prod = 1 ∧ fs.prod ^ ((M.samples.length : ℝ))⁻¹ = 1 := by
  constructor
  · intro hz
    rw [sizeFactors, if_pos ((qualifying_eq_nil_iff M).mpr hz)]
  · intro fs hfs
    rw [sizeFactors] at hfs
    by_cases hq : qualifying M = []
    · rw [if_pos hq] at hfs
      exact absurd hfs (by simp)
    · rw [if_neg hq] at hfs
      have hfs2 : fs = M.samples.map (fun s => rawFactor M s / gmFactors M) :=
        (Except.ok.inj hfs).symm
      subst hfs2
      refine ⟨by simp, ?_, sizeFactors_prod M hN hq, ?_⟩
      · intro f hf
        rw [List.mem_map] at hf
        obtain ⟨s, hs, rfl⟩ := hf
        exact div_pos (rawFactor_pos hs hq) (gmFactors_pos M hq)
      · rw [sizeFactors_prod M hN hq, Real.one_rpow]

/-- Witness for C3 at a concrete all-positive count table. -/
theorem sizeFactors_spec_witness :
    (exM3.samples ≠ []) ∧
    (((∀ g ∈ exM3.genes, ∃ s ∈ exM3.samples, exM3.entry s g = 0)
        → sizeFactors exM3 = Except.error "NormalizationError") ∧
      ∀ fs, sizeFactors exM3 = Except.ok fs →
        fs.length = exM3.samples.length ∧ (∀ f ∈ fs, 0 < f)
          ∧ fs.prod = 1 ∧ fs.prod ^ ((exM3.samples.length : ℝ))⁻¹ = 1) :=
  ⟨by decide, sizeFactors_spec exM3 (by decide)⟩

/-! ### Concrete filter-stage evaluations -/

theorem log2_epsilon : log2 epsilon = -1 := by
  rw [log2, epsilon, one_div, Real.logb_inv, Real.logb_self_eq_one one_lt_two]

theorem counts_log2_of_zero (df : CountDF) (s g : String) (h : df.entry s g = 0) :
    counts_log2 df s g = -1 := by
  rw [counts_log2, h]
  norm_num [log2_epsilon]

theorem counts_log2_ge_one (df : CountDF) (s g : String) (h : 2 ≤ df.entry s g) :
    1 ≤ counts_log2 df s g := by
  rw [counts_log2]
  apply le_max_of_le_right
  have h2 : (2 : ℝ) ≤ (df.entry s g : ℝ) + epsilon := by
    have hc : (2 : ℝ) ≤ (df.entry s g : ℝ) := by exact_mod_cast h
    rw [epsilon]; linarith
  have hlog : log2 2 ≤ log2 ((df.entry s g : ℝ) + epsilon) :=
    Real.logb_le_logb_of_le one_lt_two two_pos h2
  rwa [log2, Real.logb_self_eq_one one_lt_two] at hlog

theorem to_keep_exDF6 : to_keep exDF6 = ["MARCH1"] := by
  have hA : means_per_gene exDF6 "MARCH1" = counts_log2 exDF6 "s1" "MARCH1" := by
    rw [means_per_gene]
    show (List.map (fun s => counts_log2 exDF6 s "MARCH1") ["s1"]).sum
        / ((["s1"] : List String).length : ℝ) = _
    simp
  have hB : means_per_gene exDF6 "B" = counts_log2 exDF6 "s1" "B" := by
    rw [means_per_gene]
    show (List.map (fun s => counts_log2 exDF6 s "B") ["s1"]).sum
        / ((["s1"] : List String).length : ℝ) = _
    simp
  have hkA : ¬ (means_per_gene exDF6 "MARCH1" < tau) := by
    rw [not_lt, hA, tau]
    have h1 := counts_log2_ge_one exDF6 "s1" "MARCH1" (by decide)
    linarith
  have hkB : means_per_gene exDF6 "B" < tau := by
    rw [hB, counts_log2_of_zero exDF6 "s1" "B" (by decide), tau]
    norm_num
  have h1 : (! to_remove exDF6 "MARCH1") = true := by
    rw [to_remove, decide_eq_false hkA]; rfl
  have h2 : (! to_remove exDF6 "B") = false := by
    rw [to_remove, decide_eq_true hkB]; rfl
  rw [to_keep]
  show List.filter (fun g => ! to_remove exDF6 g) ["MARCH1", "B"] = ["MARCH1"]
  rw [List.filter_cons, List.filter_cons, List.filter_nil]
  simp [h1, h2]

theorem to_keep_exDF7 : to_keep exDF7 = ["MARCH1"] := by
  have hs1 := counts_log2_ge_one exDF7 "s1" "MARCH1" (by decide)
  have hs2 := counts_log2_ge_one exDF7 "s2" "MARCH1" (by decide)
  have hmean : ¬ (means_per_gene exDF7 "MARCH1" < tau) := by
    rw [not_lt, means_per_gene, tau]
    show (1 : ℝ) / 2 ≤ (List.map (fun s => counts_log2 exDF7 s "MARCH1") ["s1", "s2"]).sum
        / ((["s1", "s2"] : List String).length : ℝ)
    simp only [List.map_cons, List.map_nil, List.sum_cons, List.sum_nil,
      List.length_cons, List.length_nil]
    push_cast
    linarith
  have h1 : (! to_remove exDF7 "MARCH1") = true := by
    rw [to_remove, decide_eq_false hmean]; rfl
  rw [to_keep]
  show List.filter (fun g => ! to_remove exDF7 g) ["MARCH1"] = ["MARCH1"]
  rw [List.filter_cons, List.filter_nil]
  simp [h1]

theorem filtered_counts_eq_some (md : MetaDF) (df : CountDF)
    (ht : ∀ t ∈ md.titles, t ∈ df.samples)
    (hm : ∀ g ∈ to_keep df, g ∈ df.genes.dropWhile (fun x => x != "MARCH1")) :
    filtered_counts md df
      = some { rows := md.titles, genes := to_keep df, entry := df.entry } := by
  have hrows : (countsMerge md df).rows = md.titles :=
    List.filter_eq_self.mpr (fun t htl => decide_eq_true (ht t htl))
  have hcond : ((to_keep df).all
        (fun g => decide (g ∈ (countsMerge md df).genes.dropWhile (fun x => x != "MARCH1")))
      && ((countsMerge md df).rows.length == md.titles.length)) = true := by
    rw [Bool.and_eq_true]
    refine ⟨List.all_eq_true.mpr (fun g hg => decide_eq_true (hm g hg)), ?_⟩
    rw [hrows]
    simp
  rw [filtered_counts, if_pos hcond]

theorem filtered_counts_exDF6_eq :
    filtered_counts exMeta6 exDF6
      = some { rows := ["s1"], genes := ["MARCH1"], entry := exDF6.entry } := by
  have h := filtered_counts_eq_some exMeta6 exDF6 (by decide)
    (by rw [to_keep_exDF6]; decide)
  rw [h, to_keep_exDF6]
  rfl

theorem filtered_counts_exDF7_eq :
    filtered_counts exMeta7 exDF7
      = some { rows := ["s2", "s1"], genes := ["MARCH1"], entry := exDF7.entry } := by
  have h := filtered_counts_eq_some exMeta7 exDF7 (by decide)
    (by rw [to_keep_exDF7]; decide)
  rw [h, to_keep_exDF7]
  rfl

/-- C6 counterexample: on a concrete table where only one gene survives the
filter (fewer than 2), the pipeline does NOT signal a fatal error and abort:
the source has no minimum-gene check, and the filter stage produces the
one-gene reduced matrix and hands it onward (in this embedding the stage's
only failure modes, modelled as `none`, are the pandas KeyError/ValueError of
the column/index operations, and neither occurs). -/
theorem geneFilter_no_abort_counterexample :
    (to_keep exDF6).length = 1 ∧
    (filtered_counts exMeta6 exDF6).map (fun fc => fc.genes) = some ["MARCH1"] := by
  constructor
  · rw [to_keep_exDF6]
    rfl
  · rw [filtered_counts_exDF6_eq]
    rfl

/-- C6 (amended): the source performs no minimum-surviving-gene check: even
when fewer than 2 genes survive, the filter stage completes and yields the
reduced matrix, whose gene list is exactly the (short) survivor list, and the
pipeline continues with it; no configuration or filtering error is signalled
by the repository's code (a failure could only arise later, inside the
external statistics library). -/
theorem geneFilter_continues_below_two (md : MetaDF) (df : CountDF)
    (hlt : (to_keep df).length < 2)
    (ht : ∀ t ∈ md.titles, t ∈ df.samples)
    (hm : ∀ g ∈ to_keep df, g ∈ df.genes.dropWhile (fun x => x != "MARCH1")) :
    ∃ fc, filtered_counts md df = some fc ∧ fc.genes = to_keep df
      ∧ fc.genes.length < 2 :=
  ⟨_, filtered_counts_eq_some md df ht hm, rfl, hlt⟩

/-- Witness for C6 (amended) at the concrete one-survivor table. -/
theorem geneFilter_continues_below_two_witness :
    ((to_keep exDF6).length < 2) ∧
    ∃ fc, filtered_counts exMeta6 exDF6 = some fc ∧ fc.genes = to_keep exDF6
      ∧ fc.genes.length < 2 :=
  ⟨by rw [to_keep_exDF6]; decide,
    geneFilter_continues_below_two exMeta6 exDF6 (by rw [to_keep_exDF6]; decide)
      (by decide) (by rw [to_keep_exDF6]; decide)⟩

/-- C7 counterexample: with the metadata listing the two samples in the
opposite order from the count table, the matrix passed onward has rows
`["s2", "s1"]` while the original count matrix's sample order is
`["s1", "s2"]`: the inner merge keeps the METADATA row order, so the sample
order of the original matrix is not preserved, refuting the claim as stated. -/
theorem filtered_counts_order_counterexample :
    (filtered_counts exMeta7 exDF7).map (fun fc => fc.rows) = some ["s2", "s1"]
    ∧ exDF7.samples = ["s1", "s2"]
    ∧ some exDF7.samples ≠ (filtered_counts exMeta7 exDF7).map (fun fc => fc.rows) := by
  refine ⟨by rw [filtered_counts_exDF7_eq]; rfl, rfl, ?_⟩
  rw [filtered_counts_exDF7_eq]
  simp only [Option.map_some']
  intro hcon
  exact absurd (Option.some.inj hcon) (by decide)

/-- C7 (amended): under the real data's well-formedness conditions (every
metadata title occurs among the count table's samples; every surviving gene
lies in the column suffix that starts at the label `'MARCH1'`), the matrix
passed onward to normalization holds, for every gene and sample, the original
raw integer count (never the log2-transformed value — the transform only
decided inclusion); its gene list is exactly the survivor list `to_keep`; and
its rows are the metadata titles in METADATA order (equal to the original
matrix's order exactly when the two agree).  The original table is untouched:
the stage is a pure function of `df` (the source builds `counts` from
`df.copy()`). -/
theorem filtered_counts_spec (md : MetaDF) (df : CountDF)
    (ht : ∀ t ∈ md.titles, t ∈ df.samples)
    (hm : ∀ g ∈ to_keep df, g ∈ df.genes.dropWhile (fun x => x != "MARCH1")) :
    ∃ fc, filtered_counts md df = some fc
      ∧ fc.genes = to_keep df
      ∧ fc.rows = md.titles
      ∧ ∀ t g, fc.entry t g = df.entry t g :=
  ⟨_, filtered_counts_eq_some md df ht hm, rfl, rfl, fun _ _ => rfl⟩

/-- Witness for C7 (amended) at the concrete two-sample table. -/
theorem filtered_counts_spec_witness :
    (∀ t ∈ exMeta7.titles, t ∈ exDF7.samples) ∧
    ∃ fc, filtered_counts exMeta7 exDF7 = some fc
      ∧ fc.genes = to_keep exDF7
      ∧ fc.rows = exMeta7.titles
      ∧ ∀ t g, fc.entry t g = exDF7.entry t g :=
  ⟨by decide, filtered_counts_spec exMeta7 exDF7 (by decide)
    (by rw [to_keep_exDF7]; decide)⟩

end RNAseq
